import Mathlib

/-!
Verification of the debuggee engine of a TVM source-level debugger.

The development shallowly embeds the program units referenced by the claims:

* the marker decoder `Debuggee.currentDebugInfoNumber` and the source-map
  lookup `Debuggee.currentSourceMapEntry`;
* the breakpoint store (`setBreakpoint`, `clearBreakpoints`, `hasBreakpoint`,
  `isLineAvailable`);
* the stepping loop `Debuggee.stepUntilLine` with the verbs `continue` and
  `step`, the finalization routine `onFinished`, and the deferred event
  dispatch `sendEvent`;
* the source-map construction `registerCompiledContract`.

Bit strings are lists of booleans (most significant bit first, matching the
TON cell bit order); machine numbers are `Nat`/`Int`; JavaScript numbers that
may be `NaN` are the sum type `JSNum`; fallible reads return `Option` (the
`try`/`catch` in the source swallows every exception, which the embedding
renders as propagating `none`).  The emulator is an external native library;
it is modelled as an oracle: a trace function giving, for each invocation of
the single-step primitive, either the resulting code position or the
termination signal.  Calls into the emulator and event emissions are recorded
in an explicit effect list.
-/

/-- A JavaScript number that may be NaN (as produced by `parseInt`). -/
inductive JSNum where
  | nan
  | num (i : Int)
deriving DecidableEq, Repr

mutual

/-- A TON cell: a bit string together with child references. -/
inductive Cell where
  | mk (bits : List Bool) (refs : CellList)

/-- The reference list of a cell (a separate inductive so that the code-cell
traversal is structurally recursive). -/
inductive CellList where
  | nil
  | cons (c : Cell) (cs : CellList)

end

/-- Bits of a cell. -/
def Cell.bits : Cell → List Bool
  | .mk b _ => b

/-- Child references of a cell. -/
def Cell.refs : Cell → CellList
  | .mk _ r => r

/-- The emulator instruction pointer: cell hash (hex string) and bit offset. -/
structure CodePos where
  hash : String
  offset : Nat
deriving DecidableEq, Repr

/-- A source-map entry, exactly the `SourceMapEntry` type of the source:
`{ path: string; line: number; variables: string[] }`. -/
structure SourceMapEntry where
  path : String
  line : Nat
  «variables» : List String
deriving DecidableEq, Repr

/-- The source map `{[k: number]: SourceMapEntry}`: a JavaScript object with
numeric keys, rendered as an association list in key-insertion order. -/
abbrev SourceMap := List (Int × SourceMapEntry)

/-- A breakpoint record, exactly the `Breakpoint` type of the source. -/
structure Breakpoint where
  id : Nat
  line : Nat
  verified : Bool
deriving DecidableEq, Repr

/-- The session kind tag `debugType` with values `get` and `tx`. -/
inductive DebugType where
  | get
  | tx
deriving DecidableEq, Repr

/-- Lookup in a JavaScript `Map` / object, rendered as an association list. -/
def mapGet {V : Type} (m : List (String × V)) (k : String) : Option V :=
  (m.find? (fun e => e.1 = k)).map (·.2)

/-- Update in a JavaScript `Map` / object: replace the value of an existing
key in place, otherwise append the new entry (JS insertion-order semantics). -/
def mapSet {V : Type} (m : List (String × V)) (k : String) (v : V) :
    List (String × V) :=
  match m with
  | [] => [(k, v)]
  | e :: rest => if e.1 = k then (k, v) :: rest else e :: mapSet rest k v

/-! ### Bit-stream reading (the TON `Slice` operations used by the decoder) -/

/-- Big-endian bits of `n`, `w` bits wide (the TON cell bit order). -/
def natToBits : Nat → Nat → List Bool
  | 0, _ => []
  | w + 1, n => natToBits w (n / 2) ++ [decide (n % 2 = 1)]

/-- Value of a big-endian bit string. -/
def bitsToNat (l : List Bool) : Nat :=
  l.foldl (fun acc b => 2 * acc + cond b 1 0) 0

/-- Model of `Slice.skip(pos)` followed by `loadUint(w)`: read `w` bits at
offset `pos`; `none` when the read runs past the end of the cell (the source
throws there, and the caller catches). -/
def loadUintAt (bits : List Bool) (pos w : Nat) : Option Nat :=
  if pos + w ≤ bits.length then some (bitsToNat ((bits.drop pos).take w))
  else none

/-- Model of `loadBuffer(n)`: read `n` bytes (as values `< 256`) starting at
bit offset `pos`; `none` when the read runs past the end of the cell. -/
def loadBytesAt (bits : List Bool) (pos : Nat) : Nat → Option (List Nat)
  | 0 => some []
  | n + 1 =>
    match loadUintAt bits pos 8 with
    | none => none
    | some b =>
      match loadBytesAt bits (pos + 8) n with
      | none => none
      | some rest => some (b :: rest)

/-! ### JavaScript `parseInt`

The source calls `parseInt(bstr.slice(2))` where `bstr` is the UTF-8 decoding
of the payload bytes.  The model works at the byte level: ASCII bytes decode
to themselves, and any byte that is not an ASCII digit, sign, or whitespace
stops the digit scan exactly as the corresponding decoded character would.
This is faithful for every payload whose meaningful portion is ASCII, which
covers all marker payloads (the compiler emits `"DI" + decimal`). -/

/-- ASCII whitespace recognised by `parseInt` when trimming. -/
def isAsciiSpace (b : Nat) : Bool :=
  b = 32 || (9 ≤ b && b ≤ 13)

/-- Value of an ASCII decimal digit byte. -/
def digitVal (b : Nat) : Option Nat :=
  if 48 ≤ b ∧ b ≤ 57 then some (b - 48) else none

/-- Value of an ASCII hexadecimal digit byte. -/
def hexDigitVal (b : Nat) : Option Nat :=
  if 48 ≤ b ∧ b ≤ 57 then some (b - 48)
  else if 65 ≤ b ∧ b ≤ 70 then some (b - 55)
  else if 97 ≤ b ∧ b ≤ 102 then some (b - 87)
  else none

/-- Accumulate the longest run of digit bytes, left to right. -/
def parseDigitsAcc (dv : Nat → Option Nat) (base : Nat) :
    List Nat → Nat → Nat
  | [], acc => acc
  | b :: rest, acc =>
    match dv b with
    | some d => parseDigitsAcc dv base rest (acc * base + d)
    | none => acc

/-- Parse a digit run: NaN (rendered `none`) when the first byte is not a
digit, else the value of the longest digit prefix. -/
def runParse (dv : Nat → Option Nat) (base : Nat) (s : List Nat) : Option Nat :=
  match s.head? with
  | none => none
  | some b => if (dv b).isSome then some (parseDigitsAcc dv base s 0) else none

/-- Model of JavaScript `parseInt(s)` with no radix argument: trim leading
whitespace, read an optional sign, honour a `0x`/`0X` hexadecimal prefix,
then take the value of the longest digit prefix; NaN when no digit follows. -/
def parseIntBytes (s : List Nat) : JSNum :=
  let s1 := s.dropWhile isAsciiSpace
  let neg := s1.head? = some 45
  let s2 := if s1.head? = some 45 ∨ s1.head? = some 43 then s1.tail else s1
  let core : Option Nat :=
    if s2.head? = some 48 ∧ (s2.tail.head? = some 120 ∨ s2.tail.head? = some 88)
    then runParse hexDigitVal 16 s2.tail.tail
    else runParse digitVal 10 s2
  match core with
  | none => JSNum.nan
  | some v => JSNum.num (if neg then -(v : Int) else (v : Int))

/-! ### The marker decoder -/

/-- Model of `Debuggee.currentDebugInfoNumber` at a given code position with a
given code-cell index.  Returns `none` for "no marker" (`undefined` in the
source).  The `try`/`catch` around the reads is rendered by the `Option`
plumbing of `loadUintAt`/`loadBytesAt`; the UTF-8 `startsWith` test against
the prefix DI is the byte-level comparison with `[68, 73]` (the ASCII codes
of D and I — no invalid UTF-8 sequence can decode to either character). -/
def currentDebugInfoNumber (codeCells : List (String × Cell)) (pos : CodePos) :
    Option JSNum :=
  match mapGet codeCells pos.hash with
  | none => none
  | some cell =>
    match loadUintAt cell.bits pos.offset 12 with
    | none => none
    | some opp =>
      if opp ≠ 0xfef then none
      else
        match loadUintAt cell.bits (pos.offset + 12) 4 with
        | none => none
        | some n =>
          match loadBytesAt cell.bits (pos.offset + 16) (n + 1) with
          | none => none
          | some b =>
            if b.take 2 = [68, 73] then some (parseIntBytes (b.drop 2))
            else none

/-- Model of `Debuggee.currentSourceMapEntry`.  A decoded NaN index reaches
the lookup `this.sourceMap[di]`; the object key `"NaN"` is never populated
(keys come from array indices in `registerCompiledContract`), so the lookup
yields `undefined`, rendered as the `nan => none` arm. -/
def currentSourceMapEntry (sm : SourceMap) (codeCells : List (String × Cell))
    (pos : CodePos) : Option SourceMapEntry :=
  match currentDebugInfoNumber codeCells pos with
  | none => none
  | some JSNum.nan => none
  | some (JSNum.num i) => (sm.find? (fun e => e.1 = i)).map (·.2)

/-- Lookup of a numeric key in the source map (`sourceMap[di]` for an actual
number `di`). -/
def smGet (sm : SourceMap) (i : Int) : Option SourceMapEntry :=
  (sm.find? (fun e => e.1 = i)).map (·.2)

/-! ### Source-map registration and the session state -/

/-- One entry of the compiler debug-info array (`c.debugInfo[i]` in
`registerCompiledContract`): `{ file, line, ret?, vars? }`.  The optional
`ret` flag is a boolean after JavaScript truthiness (absent reads as false);
the optional `vars` array is an `Option`. -/
structure DebugInfoLocation where
  file : String
  line : Nat
  ret : Bool
  vars : Option (List String)
deriving DecidableEq, Repr

/-- Model of `registerCompiledContract`: build the source map from the
debug-info array, skipping every entry with `di.ret || di.vars === undefined`
and resolving the file path.  `resolve` abstracts the path resolution of
the node path module. -/
def registerCompiledContract (resolve : String → String)
    (debugInfo : List DebugInfoLocation) : SourceMap :=
  (List.range debugInfo.length).filterMap fun i =>
    match debugInfo[i]? with
    | none => none
    | some di =>
      if di.ret ∨ di.vars = none then none
      else some (((i : Nat) : Int),
        { path := resolve di.file, line := di.line,
          «variables» := di.vars.getD [] })

/-- The mutable fields of a `Debuggee` (the executor handle is the opaque
`ptr`; the executor itself is modelled as an oracle, and `finishedCallback`
as an effect). -/
structure DbgState where
  ptr : Nat
  debugType : DebugType
  sourceMap : SourceMap
  availableLines : List (String × List Nat)
  codeCells : List (String × Cell)
  breakpoints : List (String × List Breakpoint)
  breakpointID : Nat
  frames : List String

/-- The field initializers of the `Debuggee` class. -/
def initialState : DbgState where
  ptr := 0
  debugType := .get
  sourceMap := []
  availableLines := []
  codeCells := []
  breakpoints := []
  breakpointID := 0
  frames := []

mutual

/-- One step of the graph traversal of `setCodeCells`: record the cell under
its hash, then visit each referenced child.  The source drives the same
visit with an explicit stack (`q.pop()` / `q.push(r)`); the embedding renders
it as structural recursion over the (finite, content-addressed, hence
acyclic) cell graph — the recorded map has the same entries: every reachable
cell keyed by its hash.  `hash` abstracts
the uppercase hexadecimal content hash of the cell. -/
def collectCell (hash : Cell → String) (m : List (String × Cell)) :
    Cell → List (String × Cell)
  | .mk bits refs =>
    collectCellList hash (mapSet m (hash (.mk bits refs)) (.mk bits refs)) refs

/-- Visit every cell of a reference list in order. -/
def collectCellList (hash : Cell → String) (m : List (String × Cell)) :
    CellList → List (String × Cell)
  | .nil => m
  | .cons c cs => collectCellList hash (collectCell hash m c) cs

end

/-- Model of `Debuggee.setCodeCells`. -/
def setCodeCells (hash : Cell → String) (st : DbgState) (code : Cell) : DbgState :=
  { st with codeCells := collectCell hash st.codeCells code }

/-- Push one line under one path in `availableLines` (the body of the
`for (const di in sourceMap)` loop of `setSourceMap`). -/
def pushLine (al : List (String × List Nat)) (path : String) (line : Nat) :
    List (String × List Nat) :=
  match mapGet al path with
  | none => mapSet al path [line]
  | some ls => mapSet al path (ls ++ [line])

/-- Fold the source-map entries into `availableLines`. -/
def buildAvailableLines (al : List (String × List Nat)) :
    SourceMap → List (String × List Nat)
  | [] => al
  | (_, e) :: rest => buildAvailableLines (pushLine al e.path e.line) rest

/-- Model of `Debuggee.setSourceMap`. -/
def setSourceMap (st : DbgState) (sm : SourceMap) : DbgState :=
  { st with sourceMap := sm,
            availableLines := buildAvailableLines st.availableLines sm }

/-- Model of `Debuggee.isLineAvailable`. -/
def isLineAvailable (st : DbgState) (path : String) (line : Nat) : Bool :=
  match mapGet st.availableLines path with
  | none => false
  | some lines => lines.contains line

/-- Model of `Debuggee.hasBreakpoint`: some breakpoint of the per-path list
has the matching line (`findIndex(...) >= 0`). -/
def hasBreakpoint (bps : List (String × List Breakpoint)) (path : String)
    (line : Nat) : Bool :=
  ((mapGet bps path).getD []).any (fun v => v.line = line)

/-- Model of `Debuggee.clearBreakpoints`. -/
def clearBreakpoints (st : DbgState) (path : String) : DbgState :=
  { st with breakpoints := mapSet st.breakpoints path [] }

/-- Model of `Debuggee.setBreakpoint`: allocate the next id, verify against
`isLineAvailable`, append to the per-path list (creating it when absent),
return the record and the updated state. -/
def setBreakpoint (st : DbgState) (path : String) (line : Nat) :
    Breakpoint × DbgState :=
  let arr := (mapGet st.breakpoints path).getD []
  let bp : Breakpoint :=
    { id := st.breakpointID, line := line,
      verified := isLineAvailable st path line }
  (bp, { st with breakpoints := mapSet st.breakpoints path (arr ++ [bp]),
                 breakpointID := st.breakpointID + 1 })

/-- All breakpoint records held in the store. -/
def storedBreakpoints (bps : List (String × List Breakpoint)) :
    List Breakpoint :=
  (bps.map (·.2)).flatten

/-! ### Effects, the stepping loop, and the verbs -/

/-- Calls into the native executor made by the engine. -/
inductive ExecCall where
  | sbsGetMethodStep
  | sbsTransactionStep
  | sbsGetMethodResult
  | sbsTransactionResult
  | destroyTvmEmulator
  | destroyEmulator
deriving DecidableEq, Repr

/-- Observable effects of the engine, in program order. -/
inductive Effect where
  /-- A call into the executor. -/
  | execCall (c : ExecCall)
  /-- A synchronous `EventEmitter.emit`: listeners would observe it during
  the call.  The engine never produces this effect. -/
  | emitNow (name : String)
  /-- A `setTimeout(() => this.emit(...), 0)`: delivery is deferred to a
  later turn of the event loop. -/
  | schedEvent (name : String)
  /-- The invocation of `finishedCallback`. -/
  | callback
deriving DecidableEq, Repr

/-- Model of `Debuggee.sendEvent`: schedule the emission on a zero-delay
timer rather than emitting synchronously. -/
def sendEvent (name : String) : List Effect :=
  [Effect.schedEvent name]

/-- Model of the `debugLogFunc` wiring in the constructor: emulator log lines
are forwarded as (deferred) `output` events. -/
def debugLogFunc (_s : String) : List Effect :=
  sendEvent "output"

/-- The step primitive dispatched by `Debuggee.vmStep`. -/
def stepCall : DebugType → ExecCall
  | .get => .sbsGetMethodStep
  | .tx => .sbsTransactionStep

/-- The result accessor dispatched by `Debuggee.onFinished`. -/
def resultCall : DebugType → ExecCall
  | .get => .sbsGetMethodResult
  | .tx => .sbsTransactionResult

/-- The emulator destructor dispatched by `Debuggee.onFinished`. -/
def destroyCall : DebugType → ExecCall
  | .get => .destroyTvmEmulator
  | .tx => .destroyEmulator

/-- Effects of `Debuggee.onFinished`: emit `end`, query the kind-matching
result accessor, destroy the handle with the kind-matching destructor, and
invoke `finishedCallback` with the result. -/
def onFinishedEffects (t : DebugType) : List Effect :=
  sendEvent "end" ++ [Effect.execCall (resultCall t),
    Effect.execCall (destroyCall t), Effect.callback]

/-- The stop test of the loop body of `stepUntilLine`:
`sme !== undefined && (!breakpointsOnly || this.hasBreakpoint(...))`. -/
def stopCond (st : DbgState) (breakpointsOnly : Bool) (pos : CodePos) : Bool :=
  match currentSourceMapEntry st.sourceMap st.codeCells pos with
  | none => false
  | some sme => !breakpointsOnly || hasBreakpoint st.breakpoints sme.path sme.line

/-- Events scheduled when the loop stops: `stopOnBreakpoint` on the
breakpoints-only path, otherwise the optional `stopEvent`. -/
def stopEventEffects (breakpointsOnly : Bool) (stopEvent : Option String) :
    List Effect :=
  if breakpointsOnly then sendEvent "stopOnBreakpoint"
  else
    match stopEvent with
    | some e => sendEvent e
    | none => []

/-- How one run of `stepUntilLine` returned. -/
inductive StopKind where
  | stopped
  | finished
deriving DecidableEq, Repr

/-- The observable outcome of one run of `stepUntilLine`: how it returned,
the index of the `vmStep` invocation at which it returned, the session state
at return, and the effect log. -/
structure LoopResult where
  kind : StopKind
  index : Nat
  state : DbgState
  effects : List Effect

/-- Model of the `while (true)` loop of `Debuggee.stepUntilLine`.  The
emulator oracle `trace` gives, for the `k`-th invocation of the single-step
primitive, `none` when it signals termination and `some pos` when execution
continues at code position `pos`.  `fuel` bounds the number of iterations
modelled; exhaustion returns `none` (the source loop would still be
running). -/
def stepUntilLineFrom (st : DbgState) (trace : Nat → Option CodePos)
    (breakpointsOnly : Bool) (stopEvent : Option String) :
    Nat → Nat → List Effect → Option LoopResult
  | 0, _, _ => none
  | fuel + 1, k, acc =>
    let acc2 := acc ++ [Effect.execCall (stepCall st.debugType)]
    match trace k with
    | none => some ⟨.finished, k, st, acc2 ++ onFinishedEffects st.debugType⟩
    | some pos =>
      if stopCond st breakpointsOnly pos then
        some ⟨.stopped, k, st, acc2 ++ stopEventEffects breakpointsOnly stopEvent⟩
      else stepUntilLineFrom st trace breakpointsOnly stopEvent fuel (k + 1) acc2

/-- Model of `Debuggee.stepUntilLine`. -/
def stepUntilLine (st : DbgState) (trace : Nat → Option CodePos)
    (breakpointsOnly : Bool) (stopEvent : Option String) (fuel : Nat) :
    Option LoopResult :=
  stepUntilLineFrom st trace breakpointsOnly stopEvent fuel 0 []

namespace Debuggee

/-- Model of `Debuggee.step` (the handler of the step-in, step-over and
step-out requests): `stepUntilLine(false, stopEvent)`; the source default for
`stopEvent` is the string stopOnStep. -/
def step (st : DbgState) (trace : Nat → Option CodePos) (stopEvent : String)
    (fuel : Nat) : Option LoopResult :=
  stepUntilLine st trace false (some stopEvent) fuel

/-- Model of `Debuggee.continue`: `stepUntilLine(true)` (no stop event
argument — the breakpoint path schedules `stopOnBreakpoint` itself). -/
def continueRun (st : DbgState) (trace : Nat → Option CodePos) (fuel : Nat) :
    Option LoopResult :=
  stepUntilLine st trace true none fuel

end Debuggee

/-- Model of `Debuggee.startGetMethod`: store the executor handle and tag the
session kind; `ptr` is the handle the oracle executor returned. -/
def startGetMethod (st : DbgState) (ptr : Nat) : DbgState :=
  { st with ptr := ptr, debugType := .get }

/-- Model of `Debuggee.startTransaction`: a setup result other than 1 throws
(`none`); otherwise store the handle and tag the session kind. -/
def startTransaction (st : DbgState) (emptr : Nat) (res : Int) :
    Option DbgState :=
  if res ≠ 1 then none else some { st with ptr := emptr, debugType := .tx }

/-- Model of `Debuggee.prepareGetMethod`. -/
def prepareGetMethod (hash : Cell → String) (st : DbgState) (ptr : Nat)
    (code : Cell) (sm : SourceMap) : DbgState :=
  setSourceMap (setCodeCells hash (startGetMethod st ptr) code) sm

/-- Model of `Debuggee.prepareTransaction`. -/
def prepareTransaction (hash : Cell → String) (st : DbgState) (emptr : Nat)
    (res : Int) (code : Cell) (sm : SourceMap) : Option DbgState :=
  match startTransaction st emptr res with
  | none => none
  | some st1 => some (setSourceMap (setCodeCells hash st1 code) sm)

/-- A public operation on the debuggee, with the oracle inputs it consumes. -/
inductive DbgOp where
  | prepareGetMethodOp (ptr : Nat) (code : Cell) (sm : SourceMap)
  | prepareTransactionOp (emptr : Nat) (res : Int) (code : Cell) (sm : SourceMap)
  | setBreakpointOp (path : String) (line : Nat)
  | clearBreakpointsOp (path : String)
  | continueOp (trace : Nat → Option CodePos) (fuel : Nat)
  | stepOp (trace : Nat → Option CodePos) (stopEvent : String) (fuel : Nat)
  | onFinishedOp

/-- State transition of one public operation.  Operations that throw or only
produce effects leave the state as they found it (`onFinished` reads the
state and calls the executor but assigns no field). -/
def applyOp (hash : Cell → String) (st : DbgState) : DbgOp → DbgState
  | .prepareGetMethodOp ptr code sm => prepareGetMethod hash st ptr code sm
  | .prepareTransactionOp emptr res code sm =>
    (prepareTransaction hash st emptr res code sm).getD st
  | .setBreakpointOp path line => (setBreakpoint st path line).2
  | .clearBreakpointsOp path => clearBreakpoints st path
  | .continueOp trace fuel =>
    match Debuggee.continueRun st trace fuel with
    | some r => r.state
    | none => st
  | .stepOp trace stopEvent fuel =>
    match Debuggee.step st trace stopEvent fuel with
    | some r => r.state
    | none => st
  | .onFinishedOp => st

/-! ### The compiler-side marker encoding -/

/-- Decimal digits of `i`, most significant first (`(i).toString(10)` digit
by digit; zero prints as a single zero digit). -/
def decimalDigitsMSB (i : Nat) : List Nat :=
  if i = 0 then [0] else (Nat.digits 10 i).reverse

/-- Modelled from the spec: the ASCII bytes of the decimal notation of `i`,
the `decimal-ascii(index)` of the marker format (no source file of the
repository produces markers; the encoding is the byte layout of the spec). -/
def decimalAscii (i : Nat) : List Nat :=
  (decimalDigitsMSB i).map (· + 48)

/-- Modelled from the spec: the marker payload `"DI" + decimal-ascii(i)`. -/
def markerPayload (i : Nat) : List Nat :=
  [68, 73] ++ decimalAscii i

/-- Modelled from the spec: the embedded marker bit layout of the spec —
12-bit opcode `0xFEF`, 4-bit length-minus-one, then the payload bytes. -/
def encodeMarker (payload : List Nat) : List Bool :=
  natToBits 12 0xfef ++ natToBits 4 (payload.length - 1) ++
    (payload.map (natToBits 8)).flatten

/-! ### Event-loop model for deferred dispatch -/

/-- The event names scheduled (via zero-delay timers) in an effect log. -/
def scheduledEvents (effects : List Effect) : List String :=
  effects.filterMap fun e =>
    match e with
    | .schedEvent s => some s
    | _ => none

/-- The verb runs as one macrotask of the host event loop and returns at the
end of turn 0. -/
def verbReturnTurn : Nat := 0

/-- A callback scheduled as the `i`-th zero-delay timer of a verb runs in
macrotask turn `i + 1`: after the task of the verb has completed. -/
def eventDispatchTurn (i : Nat) : Nat := i + 1

/-! ### Concrete sessions used to witness the theorems -/

/-- A one-entry debug-info array holding a statement location. -/
def dbgInfoW : List DebugInfoLocation :=
  [{ file := "a.fc", line := 5, ret := false, vars := some [] }]

/-- The registered source map of `dbgInfoW`. -/
def smW : SourceMap := registerCompiledContract id dbgInfoW

/-- A code cell holding exactly the marker with payload `"DI0"`. -/
def cellW : Cell := .mk (encodeMarker (markerPayload 0)) .nil

/-- The code position at the start of `cellW`. -/
def posW : CodePos := ⟨"H", 0⟩

/-- An emulator trace: one step landing on the marker, then termination. -/
def traceW : Nat → Option CodePos := fun k => if k = 0 then some posW else none

/-- A session prepared with `smW` and `cellW`. -/
def stW : DbgState :=
  { initialState with sourceMap := smW, codeCells := [("H", cellW)] }

/-- Outcome of `step` on `stW` along `traceW`. -/
def rW : LoopResult :=
  ⟨.stopped, 0, stW, [.execCall .sbsGetMethodStep, .schedEvent "stopOnStep"]⟩

/-- A breakpoint on line 5 of `a.fc`. -/
def bpW : Breakpoint := { id := 0, line := 5, verified := true }

/-- The session `stW` with the breakpoint `bpW` set. -/
def stW2 : DbgState :=
  { stW with breakpoints := [("a.fc", [bpW])], breakpointID := 1 }

/-- Outcome of `continue` on `stW2` along `traceW`. -/
def rW2 : LoopResult :=
  ⟨.stopped, 0, stW2, [.execCall .sbsGetMethodStep, .schedEvent "stopOnBreakpoint"]⟩

/-- A one-entry debug-info array holding a return location. -/
def dbgInfoR : List DebugInfoLocation :=
  [{ file := "f.fc", line := 1, ret := true, vars := some [] }]

/-- The registered source map of `dbgInfoR` (the return entry is skipped). -/
def smR : SourceMap := registerCompiledContract id dbgInfoR

/-- A session whose only marker is the return marker of `dbgInfoR`. -/
def stR : DbgState :=
  { initialState with sourceMap := smR, codeCells := [("H", cellW)] }

/-- Outcome of `step` on `stR` along `traceW`: the return marker does not
stop the loop and the run ends with VM termination. -/
def rR : LoopResult :=
  ⟨.finished, 1, stR,
    [.execCall .sbsGetMethodStep, .execCall .sbsGetMethodStep,
     .schedEvent "end", .execCall .sbsGetMethodResult,
     .execCall .destroyTvmEmulator, .callback]⟩

/-- A cell holding a marker with payload `"DIxy"` (malformed decimal). -/
def cellX : Cell := .mk (encodeMarker [68, 73, 120, 121]) .nil

/-- A code-cell index holding `cellX`. -/
def ccX : List (String × Cell) := [("HX", cellX)]

/-- The code position at the start of `cellX`. -/
def posX : CodePos := ⟨"HX", 0⟩

/-- A cell shorter than the 12-bit opcode read. -/
def cellShort : Cell := .mk [true] .nil

/-- A cell holding the opcode and length nibble and nothing else. -/
def cellShort2 : Cell := .mk (natToBits 12 0xfef ++ natToBits 4 5) .nil

/-- A cell holding a marker whose payload `"AB"` lacks the `DI` prefix. -/
def cellP : Cell := .mk (encodeMarker [65, 66]) .nil

/-- An emulator trace that terminates on the first step. -/
def traceF : Nat → Option CodePos := fun _ => none

/-- Outcome of a run along `traceF`: immediate finalization. -/
def rF : LoopResult :=
  ⟨.finished, 0, initialState,
    [.execCall .sbsGetMethodStep, .schedEvent "end",
     .execCall .sbsGetMethodResult, .execCall .destroyTvmEmulator, .callback]⟩

/-! ## Theorems

General lemmas about the embedding first, then one theorem per claim with
its witness or counterexample. -/

theorem natToBits_length (w n : Nat) : (natToBits w n).length = w := by
  induction w generalizing n with
  | zero => rfl
  | succ w ih => simp [natToBits, ih]

theorem bitsToNat_append_singleton (l : List Bool) (b : Bool) :
    bitsToNat (l ++ [b]) = 2 * bitsToNat l + cond b 1 0 := by
  simp [bitsToNat, List.foldl_append]

theorem bitsToNat_natToBits (w n : Nat) :
    bitsToNat (natToBits w n) = n % 2 ^ w := by
  induction w generalizing n with
  | zero => simp [natToBits, bitsToNat, Nat.mod_one]
  | succ w ih =>
    rw [natToBits, bitsToNat_append_singleton, ih]
    have hkey : n % (2 * 2 ^ w) = n % 2 + 2 * (n / 2 % 2 ^ w) := Nat.mod_mul
    have hpow : 2 ^ (w + 1) = 2 * 2 ^ w := by rw [Nat.pow_succ]; omega
    rw [hpow, hkey]
    rcases Nat.mod_two_eq_zero_or_one n with h | h <;> simp [h]
    omega

theorem loadUintAt_exact (pre suf : List Bool) (w v : Nat) (hv : v < 2 ^ w) :
    loadUintAt (pre ++ natToBits w v ++ suf) pre.length w = some v := by
  have hlen : (natToBits w v).length = w := natToBits_length w v
  have hdrop : (pre ++ natToBits w v ++ suf).drop pre.length = natToBits w v ++ suf := by
    rw [List.append_assoc, List.drop_left]
  have htake : (natToBits w v ++ suf).take w = natToBits w v := by
    have h := List.take_left (natToBits w v) suf
    rwa [hlen] at h
  rw [loadUintAt, if_pos]
  · rw [hdrop, htake, bitsToNat_natToBits, Nat.mod_eq_of_lt hv]
  · simp [hlen]

theorem loadBytesAt_exact :
    ∀ (payload : List Nat) (pre post : List Bool),
      (∀ x ∈ payload, x < 256) →
      loadBytesAt (pre ++ (payload.map (natToBits 8)).flatten ++ post)
        pre.length payload.length = some payload := by
  intro payload
  induction payload with
  | nil => intro pre post _; simp [loadBytesAt]
  | cons b rest ih =>
    intro pre post hb
    have hb1 : b < 2 ^ 8 := by
      have h := hb b (List.mem_cons_self b rest)
      have h2 : (2 : Nat) ^ 8 = 256 := by norm_num
      omega
    have hrest : ∀ x ∈ rest, x < 256 := fun x hx => hb x (List.mem_cons_of_mem b hx)
    have hshape : pre ++ ((b :: rest).map (natToBits 8)).flatten ++ post =
        pre ++ natToBits 8 b ++ ((rest.map (natToBits 8)).flatten ++ post) := by
      simp [List.append_assoc]
    have h1 : loadUintAt (pre ++ ((b :: rest).map (natToBits 8)).flatten ++ post)
        pre.length 8 = some b := by
      rw [hshape]; exact loadUintAt_exact pre _ 8 b hb1
    have h2 : loadBytesAt (pre ++ ((b :: rest).map (natToBits 8)).flatten ++ post)
        (pre.length + 8) rest.length = some rest := by
      have h3 := ih (pre ++ natToBits 8 b) post hrest
      have h4 : (pre ++ natToBits 8 b).length = pre.length + 8 := by
        simp [natToBits_length]
      rw [h4] at h3
      rw [hshape]
      simpa [List.append_assoc] using h3
    rw [List.length_cons, loadBytesAt, h1, h2]

theorem loadBytesAt_past_end :
    ∀ (m : Nat) (bits : List Bool) (pos : Nat), 0 < m →
      bits.length < pos + 8 * m → loadBytesAt bits pos m = none := by
  intro m
  induction m with
  | zero => intro _ _ h; omega
  | succ m ih =>
    intro bits pos _ hlen
    by_cases h8 : pos + 8 ≤ bits.length
    · cases m with
      | zero => omega
      | succ m2 =>
        have h5 : loadBytesAt bits (pos + 8) (m2 + 1) = none := by
          apply ih bits (pos + 8) (by omega)
          omega
        rw [loadBytesAt, h5]
        cases h6 : loadUintAt bits pos 8 <;> rfl
    · rw [loadBytesAt, loadUintAt, if_neg h8]

theorem digitVal_shift (d : Nat) (hd : d < 10) : digitVal (d + 48) = some d := by
  rw [digitVal, if_pos (by omega)]
  congr 1

theorem parseDigitsAcc_map_digits :
    ∀ (l : List Nat), (∀ d ∈ l, d < 10) → ∀ (acc : Nat),
      parseDigitsAcc digitVal 10 (l.map (· + 48)) acc =
        acc * 10 ^ l.length + Nat.ofDigits 10 l.reverse := by
  intro l
  induction l with
  | nil => intro _ acc; simp [parseDigitsAcc, Nat.ofDigits]
  | cons d t ih =>
    intro hd acc
    have hd1 : d < 10 := hd d (List.mem_cons_self d t)
    have ht : ∀ x ∈ t, x < 10 := fun x hx => hd x (List.mem_cons_of_mem d hx)
    have hstep : parseDigitsAcc digitVal 10 ((d + 48) :: t.map (· + 48)) acc =
        parseDigitsAcc digitVal 10 (t.map (· + 48)) (acc * 10 + d) := by
      rw [parseDigitsAcc, digitVal_shift d hd1]
    rw [List.map_cons, hstep, ih ht (acc * 10 + d), List.reverse_cons,
      Nat.ofDigits_append]
    simp [Nat.ofDigits]
    ring

theorem decimalDigitsMSB_lt (i : Nat) : ∀ d ∈ decimalDigitsMSB i, d < 10 := by
  intro d hd
  rw [decimalDigitsMSB] at hd
  by_cases hi : i = 0
  · rw [if_pos hi] at hd
    simp at hd
    omega
  · rw [if_neg hi, List.mem_reverse] at hd
    exact Nat.digits_lt_base (by norm_num) hd

theorem decimalDigitsMSB_ne_nil (i : Nat) : decimalDigitsMSB i ≠ [] := by
  rw [decimalDigitsMSB]
  by_cases hi : i = 0
  · rw [if_pos hi]; simp
  · rw [if_neg hi]
    simp [Nat.digits_ne_nil_iff_ne_zero.mpr hi]

theorem ofDigits_decimalDigitsMSB (i : Nat) :
    Nat.ofDigits 10 (decimalDigitsMSB i).reverse = i := by
  by_cases hi : i = 0
  · rw [decimalDigitsMSB, if_pos hi, hi]
    simp [Nat.ofDigits]
  · rw [decimalDigitsMSB, if_neg hi, List.reverse_reverse, Nat.ofDigits_digits]

theorem decimalDigitsMSB_head_ne_zero (i : Nat) (hi : i ≠ 0) (d : Nat)
    (t : List Nat) (h : decimalDigitsMSB i = d :: t) : d ≠ 0 := by
  rw [decimalDigitsMSB, if_neg hi] at h
  have h2 : Nat.digits 10 i = t.reverse ++ [d] := by
    have h3 := congrArg List.reverse h
    rwa [List.reverse_reverse, List.reverse_cons] at h3
  have hne : Nat.digits 10 i ≠ [] := Nat.digits_ne_nil_iff_ne_zero.mpr hi
  have h4 : (Nat.digits 10 i).getLast? = some d := by
    rw [h2, List.getLast?_concat]
  have h5 := List.getLast?_eq_getLast _ hne
  rw [h5] at h4
  injection h4 with h7
  have h6 := Nat.getLast_digit_ne_zero 10 hi
  intro hd0
  exact h6 (h7.trans hd0)

theorem parseIntBytes_decimalAscii (i : Nat) :
    parseIntBytes (decimalAscii i) = JSNum.num i := by
  by_cases hi : i = 0
  · subst hi; decide
  · obtain ⟨d, t, hdt⟩ : ∃ d t, decimalDigitsMSB i = d :: t := by
      cases h : decimalDigitsMSB i with
      | nil => exact absurd h (decimalDigitsMSB_ne_nil i)
      | cons d t => exact ⟨d, t, rfl⟩
    have hlt := decimalDigitsMSB_lt i
    have hd10 : d < 10 := hlt d (by rw [hdt]; exact List.mem_cons_self d t)
    have ht10 : ∀ x ∈ t, x < 10 := fun x hx =>
      hlt x (by rw [hdt]; exact List.mem_cons_of_mem d hx)
    have hd0 : d ≠ 0 := decimalDigitsMSB_head_ne_zero i hi d t hdt
    have hs : decimalAscii i = (d + 48) :: t.map (· + 48) := by
      rw [decimalAscii, hdt, List.map_cons]
    have hnospace : isAsciiSpace (d + 48) = false := by
      simp [isAsciiSpace]
    have hdrop : (decimalAscii i).dropWhile isAsciiSpace = (d + 48) :: t.map (· + 48) := by
      rw [hs, List.dropWhile_cons, hnospace]
      simp
    have hhead : ((d + 48) :: t.map (· + 48)).head? = some (d + 48) := rfl
    have hsign : ¬(((d + 48) :: t.map (· + 48)).head? = some 45 ∨
        ((d + 48) :: t.map (· + 48)).head? = some 43) := by
      rw [hhead]
      rintro (h | h) <;> (injection h with h2; omega)
    have hneg : ¬(((d + 48) :: t.map (· + 48)).head? = some 45) := by
      rw [hhead]
      intro h
      injection h with h2
      omega
    have hhex : ¬(((d + 48) :: t.map (· + 48)).head? = some 48 ∧
        (((d + 48) :: t.map (· + 48)).tail.head? = some 120 ∨
         ((d + 48) :: t.map (· + 48)).tail.head? = some 88)) := by
      rw [hhead]
      rintro ⟨h, _⟩
      injection h with h2
      omega
    have hrun : runParse digitVal 10 ((d + 48) :: t.map (· + 48)) =
        some (parseDigitsAcc digitVal 10 ((d + 48) :: t.map (· + 48)) 0) := by
      rw [runParse]
      simp [digitVal_shift d hd10]
    have hval : parseDigitsAcc digitVal 10 ((d + 48) :: t.map (· + 48)) 0 = i := by
      have h1 : (d + 48) :: t.map (· + 48) = (d :: t).map (· + 48) := by
        rw [List.map_cons]
      rw [h1, parseDigitsAcc_map_digits (d :: t) (by rw [← hdt]; exact hlt) 0,
        ← hdt, ofDigits_decimalDigitsMSB]
      simp
    rw [parseIntBytes]
    simp only [hdrop, if_neg hsign, if_neg hhex, hrun, hval, if_neg hneg]

theorem register_mem (resolve : String → String)
    (dbgInfo : List DebugInfoLocation) (p : Int × SourceMapEntry)
    (hp : p ∈ registerCompiledContract resolve dbgInfo) :
    ∃ (n : Nat) (di : DebugInfoLocation),
      n < dbgInfo.length ∧ dbgInfo[n]? = some di ∧ di.ret = false ∧
      di.vars ≠ none ∧ p.1 = (n : Int) ∧
      p.2 = { path := resolve di.file, line := di.line,
              «variables» := di.vars.getD [] } := by
  rw [registerCompiledContract, List.mem_filterMap] at hp
  obtain ⟨n, hn, hf⟩ := hp
  rw [List.mem_range] at hn
  cases hdi : dbgInfo[n]? with
  | none => rw [hdi] at hf; simp at hf
  | some di =>
    simp only [hdi] at hf
    by_cases hc : di.ret ∨ di.vars = none
    · rw [if_pos hc] at hf; simp at hf
    · rw [if_neg hc] at hf
      push_neg at hc
      obtain ⟨hret, hvars⟩ := hc
      injection hf with hf2
      refine ⟨n, di, hn, hdi, ?_, hvars, ?_, ?_⟩
      · exact Bool.eq_false_iff.mpr hret
      · rw [← hf2]
      · rw [← hf2]

theorem smGet_register_some (resolve : String → String)
    (dbgInfo : List DebugInfoLocation) (i : Int) (e : SourceMapEntry)
    (h : smGet (registerCompiledContract resolve dbgInfo) i = some e) :
    ∃ (n : Nat) (di : DebugInfoLocation),
      i = (n : Int) ∧ n < dbgInfo.length ∧ dbgInfo[n]? = some di ∧
      di.ret = false ∧ di.vars ≠ none ∧
      e = { path := resolve di.file, line := di.line,
            «variables» := di.vars.getD [] } := by
  rw [smGet] at h
  cases hf : (registerCompiledContract resolve dbgInfo).find? (fun x => x.1 = i) with
  | none => rw [hf] at h; simp at h
  | some a =>
    rw [hf] at h
    have hmem := List.mem_of_find?_eq_some hf
    have hpred := List.find?_some hf
    have ha2 : a.2 = e := by injection h
    obtain ⟨n, di, hn, hdi, hret, hvars, hkey, hval⟩ :=
      register_mem resolve dbgInfo a hmem
    have hkey2 : a.1 = i := by simpa using hpred
    exact ⟨n, di, by rw [← hkey2, hkey], hn, hdi, hret, hvars, by rw [← ha2, hval]⟩

theorem smGet_register_ret (resolve : String → String)
    (dbgInfo : List DebugInfoLocation) (n : Nat) (di : DebugInfoLocation)
    (hdi : dbgInfo[n]? = some di) (hret : di.ret = true) :
    smGet (registerCompiledContract resolve dbgInfo) (n : Int) = none := by
  rw [smGet]
  have hf : (registerCompiledContract resolve dbgInfo).find?
      (fun x => x.1 = (n : Int)) = none := by
    rw [List.find?_eq_none]
    intro a hmem hpred
    obtain ⟨m, di2, _, hdi2, hret2, _, hkey, _⟩ :=
      register_mem resolve dbgInfo a hmem
    have : a.1 = (n : Int) := by simpa using hpred
    rw [hkey] at this
    have hmn : m = n := by exact_mod_cast this
    rw [hmn, hdi] at hdi2
    injection hdi2 with hdd
    rw [hdd] at hret
    rw [hret2] at hret
    exact Bool.false_ne_true hret
  rw [hf]
  rfl

theorem currentSourceMapEntry_eq_some (sm : SourceMap)
    (cc : List (String × Cell)) (pos : CodePos) (sme : SourceMapEntry)
    (h : currentSourceMapEntry sm cc pos = some sme) :
    ∃ i, currentDebugInfoNumber cc pos = some (JSNum.num i) ∧
      smGet sm i = some sme := by
  rw [currentSourceMapEntry] at h
  cases hd : currentDebugInfoNumber cc pos with
  | none => rw [hd] at h; simp at h
  | some j =>
    rw [hd] at h
    cases j with
    | nan => simp at h
    | num i => exact ⟨i, rfl, h⟩

theorem currentSourceMapEntry_nan (sm : SourceMap) (cc : List (String × Cell))
    (pos : CodePos) (h : currentDebugInfoNumber cc pos = some JSNum.nan) :
    currentSourceMapEntry sm cc pos = none := by
  rw [currentSourceMapEntry, h]

theorem stopCond_false_entry (st : DbgState) (pos : CodePos)
    (h : stopCond st false pos = false) :
    currentSourceMapEntry st.sourceMap st.codeCells pos = none := by
  rw [stopCond] at h
  cases hs : currentSourceMapEntry st.sourceMap st.codeCells pos with
  | none => rfl
  | some sme => rw [hs] at h; simp at h

theorem stopCond_true_entry (st : DbgState) (b : Bool) (pos : CodePos)
    (h : stopCond st b pos = true) :
    ∃ sme, currentSourceMapEntry st.sourceMap st.codeCells pos = some sme := by
  rw [stopCond] at h
  cases hs : currentSourceMapEntry st.sourceMap st.codeCells pos with
  | none => rw [hs] at h; simp at h
  | some sme => exact ⟨sme, rfl⟩

theorem stopCond_true_breakpoint (st : DbgState) (pos : CodePos)
    (h : stopCond st true pos = true) :
    ∃ sme, currentSourceMapEntry st.sourceMap st.codeCells pos = some sme ∧
      hasBreakpoint st.breakpoints sme.path sme.line = true := by
  rw [stopCond] at h
  cases hs : currentSourceMapEntry st.sourceMap st.codeCells pos with
  | none => rw [hs] at h; simp at h
  | some sme =>
    rw [hs] at h
    simp at h
    exact ⟨sme, rfl, h⟩

theorem stopCond_false_no_breakpoint (st : DbgState) (pos : CodePos)
    (sme : SourceMapEntry)
    (h : stopCond st true pos = false)
    (hs : currentSourceMapEntry st.sourceMap st.codeCells pos = some sme) :
    hasBreakpoint st.breakpoints sme.path sme.line = false := by
  rw [stopCond, hs] at h
  simpa using h

theorem stepUntilLineFrom_spec (st : DbgState) (trace : Nat → Option CodePos)
    (b : Bool) (ev : Option String) :
    ∀ (fuel k : Nat) (acc : List Effect) (r : LoopResult),
      stepUntilLineFrom st trace b ev fuel k acc = some r →
      r.state = st ∧ k ≤ r.index ∧
      (∀ j, k ≤ j → j < r.index →
        ∃ p, trace j = some p ∧ stopCond st b p = false) ∧
      ((r.kind = .finished ∧ trace r.index = none ∧
          r.effects = acc ++ List.replicate (r.index + 1 - k)
            (Effect.execCall (stepCall st.debugType)) ++
            onFinishedEffects st.debugType) ∨
       (r.kind = .stopped ∧
          (∃ p, trace r.index = some p ∧ stopCond st b p = true) ∧
          r.effects = acc ++ List.replicate (r.index + 1 - k)
            (Effect.execCall (stepCall st.debugType)) ++
            stopEventEffects b ev)) := by
  intro fuel
  induction fuel with
  | zero => intro k acc r h; simp [stepUntilLineFrom] at h
  | succ fuel ih =>
    intro k acc r h
    rw [stepUntilLineFrom] at h
    cases htr : trace k with
    | none =>
      simp only [htr] at h
      injection h with h2
      subst h2
      refine ⟨rfl, Nat.le_refl k, ?_, Or.inl ⟨rfl, htr, ?_⟩⟩
      · intro j hj1 hj2
        change j < k at hj2
        omega
      · show acc ++ [Effect.execCall (stepCall st.debugType)] ++
            onFinishedEffects st.debugType =
          acc ++ List.replicate (k + 1 - k)
            (Effect.execCall (stepCall st.debugType)) ++
            onFinishedEffects st.debugType
        have hk1 : k + 1 - k = 1 := by omega
        rw [hk1]
        rfl
    | some pos =>
      simp only [htr] at h
      by_cases hsc : stopCond st b pos
      · rw [if_pos hsc] at h
        injection h with h2
        subst h2
        refine ⟨rfl, Nat.le_refl k, ?_, Or.inr ⟨rfl, ⟨pos, htr, hsc⟩, ?_⟩⟩
        · intro j hj1 hj2
          change j < k at hj2
          omega
        · show acc ++ [Effect.execCall (stepCall st.debugType)] ++
              stopEventEffects b ev =
            acc ++ List.replicate (k + 1 - k)
              (Effect.execCall (stepCall st.debugType)) ++
              stopEventEffects b ev
          have hk1 : k + 1 - k = 1 := by omega
          rw [hk1]
          rfl
      · rw [if_neg hsc] at h
        obtain ⟨hstate, hk, hmid, hrest⟩ := ih (k + 1)
          (acc ++ [Effect.execCall (stepCall st.debugType)]) r h
        have hscf : stopCond st b pos = false := Bool.eq_false_iff.mpr hsc
        refine ⟨hstate, by omega, ?_, ?_⟩
        · intro j hj1 hj2
          by_cases hjk : j = k
          · exact ⟨pos, by rw [hjk]; exact htr, hscf⟩
          · exact hmid j (by omega) hj2
        · have hrep : ∀ (tail : List Effect),
              acc ++ [Effect.execCall (stepCall st.debugType)] ++
                List.replicate (r.index + 1 - (k + 1))
                  (Effect.execCall (stepCall st.debugType)) ++ tail =
              acc ++ List.replicate (r.index + 1 - k)
                (Effect.execCall (stepCall st.debugType)) ++ tail := by
            intro tail
            have hn : r.index + 1 - k = (r.index + 1 - (k + 1)) + 1 := by omega
            rw [hn, List.replicate_succ]
            simp [List.append_assoc]
          rcases hrest with ⟨hkind, htr2, heff⟩ | ⟨hkind, hstop, heff⟩
          · exact Or.inl ⟨hkind, htr2, by rw [heff, hrep]⟩
          · exact Or.inr ⟨hkind, hstop, by rw [heff, hrep]⟩

theorem stepUntilLine_spec (st : DbgState) (trace : Nat → Option CodePos)
    (b : Bool) (ev : Option String) (fuel : Nat) (r : LoopResult)
    (h : stepUntilLine st trace b ev fuel = some r) :
    r.state = st ∧
    (∀ j, j < r.index →
      ∃ p, trace j = some p ∧ stopCond st b p = false) ∧
    ((r.kind = .finished ∧ trace r.index = none ∧
        r.effects = List.replicate (r.index + 1)
          (Effect.execCall (stepCall st.debugType)) ++
          onFinishedEffects st.debugType) ∨
     (r.kind = .stopped ∧
        (∃ p, trace r.index = some p ∧ stopCond st b p = true) ∧
        r.effects = List.replicate (r.index + 1)
          (Effect.execCall (stepCall st.debugType)) ++
          stopEventEffects b ev)) := by
  obtain ⟨hstate, _, hmid, hrest⟩ :=
    stepUntilLineFrom_spec st trace b ev fuel 0 [] r h
  refine ⟨hstate, fun j hj => hmid j (Nat.zero_le j) hj, ?_⟩
  rcases hrest with ⟨hkind, htr, heff⟩ | ⟨hkind, hstop, heff⟩
  · exact Or.inl ⟨hkind, htr, by simpa using heff⟩
  · exact Or.inr ⟨hkind, hstop, by simpa using heff⟩

theorem scheduledEvents_append (a b : List Effect) :
    scheduledEvents (a ++ b) = scheduledEvents a ++ scheduledEvents b := by
  rw [scheduledEvents, scheduledEvents, scheduledEvents, List.filterMap_append]

theorem scheduledEvents_replicate_step (n : Nat) (c : ExecCall) :
    scheduledEvents (List.replicate n (Effect.execCall c)) = [] := by
  induction n with
  | zero => rfl
  | succ n ih =>
    rw [List.replicate_succ, scheduledEvents, List.filterMap_cons]
    exact ih

theorem emitNow_not_mem_onFinishedEffects (t : DebugType) (s : String) :
    Effect.emitNow s ∉ onFinishedEffects t := by
  cases t <;> simp [onFinishedEffects, sendEvent, resultCall, destroyCall]

theorem emitNow_not_mem_stopEventEffects (b : Bool) (ev : Option String)
    (s : String) : Effect.emitNow s ∉ stopEventEffects b ev := by
  rw [stopEventEffects.eq_def]
  cases b with
  | true => simp [sendEvent]
  | false =>
    cases ev with
    | none => simp
    | some e => simp [sendEvent]

theorem mapGet_mapSet_self {V : Type} (m : List (String × V)) (k : String)
    (v : V) : mapGet (mapSet m k v) k = some v := by
  induction m with
  | nil => simp [mapSet, mapGet, List.find?]
  | cons e rest ih =>
    rw [mapSet]
    by_cases he : e.1 = k
    · rw [if_pos he]
      simp [mapGet, List.find?]
    · rw [if_neg he]
      rw [mapGet, List.find?_cons_of_neg _ (by simpa using he)]
      exact ih

theorem storedBreakpoints_mapSet (m : List (String × List Breakpoint))
    (k : String) (v : List Breakpoint) (x : Breakpoint)
    (hx : x ∈ storedBreakpoints (mapSet m k v)) :
    x ∈ v ∨ x ∈ storedBreakpoints m := by
  induction m with
  | nil =>
    simp [mapSet, storedBreakpoints] at hx
    exact Or.inl hx
  | cons e rest ih =>
    rw [mapSet] at hx
    by_cases he : e.1 = k
    · rw [if_pos he] at hx
      simp [storedBreakpoints] at hx
      rcases hx with hx | hx
      · exact Or.inl hx
      · exact Or.inr (by simp [storedBreakpoints]; exact Or.inr hx)
    · rw [if_neg he] at hx
      simp [storedBreakpoints] at hx
      rcases hx with hx | hx
      · exact Or.inr (by simp [storedBreakpoints]; exact Or.inl hx)
      · rcases ih (by simpa [storedBreakpoints] using hx) with h | h
        · exact Or.inl h
        · exact Or.inr (by simp [storedBreakpoints] at h ⊢; exact Or.inr h)

theorem mapGet_mem_stored (m : List (String × List Breakpoint)) (k : String)
    (v : List Breakpoint) (hv : mapGet m k = some v) (x : Breakpoint)
    (hx : x ∈ v) : x ∈ storedBreakpoints m := by
  rw [mapGet] at hv
  cases hf : m.find? (fun e => e.1 = k) with
  | none => rw [hf] at hv; simp at hv
  | some e =>
    rw [hf] at hv
    injection hv with hv2
    have hmem := List.mem_of_find?_eq_some hf
    rw [storedBreakpoints, List.mem_flatten]
    refine ⟨e.2, List.mem_map_of_mem _ hmem, ?_⟩
    have hv3 : e.2 = v := hv2
    rw [hv3]
    exact hx

theorem stepUntilLine_state (st : DbgState) (trace : Nat → Option CodePos)
    (b : Bool) (ev : Option String) (fuel : Nat) (r : LoopResult)
    (h : stepUntilLine st trace b ev fuel = some r) : r.state = st :=
  (stepUntilLine_spec st trace b ev fuel r h).1

theorem applyOp_frames (hash : Cell → String) (st : DbgState) (op : DbgOp) :
    (applyOp hash st op).frames = st.frames := by
  cases op with
  | prepareGetMethodOp ptr code sm => rfl
  | prepareTransactionOp emptr res code sm =>
    rw [applyOp, prepareTransaction, startTransaction]
    by_cases hres : res ≠ 1
    · rw [if_pos hres]
      rfl
    · rw [if_neg hres]
      rfl
  | setBreakpointOp path line => rfl
  | clearBreakpointsOp path => rfl
  | continueOp trace fuel =>
    rw [applyOp]
    cases hr : Debuggee.continueRun st trace fuel with
    | none => rfl
    | some r =>
      have hstate := stepUntilLine_state st trace true none fuel r hr
      show r.state.frames = st.frames
      rw [hstate]
  | stepOp trace stopEvent fuel =>
    rw [applyOp]
    cases hr : Debuggee.step st trace stopEvent fuel with
    | none => rfl
    | some r =>
      have hstate := stepUntilLine_state st trace false (some stopEvent) fuel r hr
      show r.state.frames = st.frames
      rw [hstate]
  | onFinishedOp => rfl

/-- Claim C9: the `frames` field of a `Debuggee` is initialized to the empty
array and no public operation ever modifies it — across every sequence of
prepare, breakpoint, stepping and finalisation operations it stays `[]`. -/
theorem c9_frames_constant :
    initialState.frames = ([] : List String) ∧
    (∀ (hash : Cell → String) (st : DbgState) (op : DbgOp),
      (applyOp hash st op).frames = st.frames) ∧
    (∀ (hash : Cell → String) (ops : List DbgOp),
      (ops.foldl (applyOp hash) initialState).frames = ([] : List String)) := by
  refine ⟨rfl, applyOp_frames, ?_⟩
  intro hash ops
  have h : ∀ (l : List DbgOp) (st : DbgState),
      (l.foldl (applyOp hash) st).frames = st.frames := by
    intro l
    induction l with
    | nil => intro st; rfl
    | cons op rest ih =>
      intro st
      rw [List.foldl_cons, ih, applyOp_frames]
  rw [h]
  rfl

/-- Claim C1: a `stepOver` invocation (the `next` request dispatches
`Debuggee.step`, that is `stepUntilLine` with stopOnStep) keeps stepping
and stops only at the next marker holding a Statement entry — an entry kept
by `registerCompiledContract`, hence with `ret` false and `vars` present —
and at the stop the frame depth satisfies `frames.length ≤ d₀` where `d₀` is
the depth captured at invocation (`frames` is never touched, so the bound
holds with equality), and the scheduled event is `stopOnStep`. -/
theorem c1_stepOver_stops_at_next_statement
    (resolve : String → String) (dbgInfo : List DebugInfoLocation)
    (st : DbgState) (trace : Nat → Option CodePos) (fuel : Nat) (r : LoopResult)
    (hsm : st.sourceMap = registerCompiledContract resolve dbgInfo)
    (hrun : Debuggee.step st trace "stopOnStep" fuel = some r)
    (hstop : r.kind = StopKind.stopped) :
    (∃ (pos : CodePos) (i : Int) (sme : SourceMapEntry) (n : Nat)
        (di : DebugInfoLocation),
      trace r.index = some pos ∧
      currentDebugInfoNumber st.codeCells pos = some (JSNum.num i) ∧
      smGet st.sourceMap i = some sme ∧
      i = (n : Int) ∧ dbgInfo[n]? = some di ∧
      di.ret = false ∧ di.vars ≠ none) ∧
    (∀ j, j < r.index → ∃ p, trace j = some p ∧
      currentSourceMapEntry st.sourceMap st.codeCells p = none) ∧
    r.state.frames.length ≤ st.frames.length ∧
    scheduledEvents r.effects = ["stopOnStep"] := by
  obtain ⟨hstate, hmid, hrest⟩ :=
    stepUntilLine_spec st trace false (some "stopOnStep") fuel r hrun
  rcases hrest with ⟨hkind, _, _⟩ | ⟨_, ⟨p, htr, hsc⟩, heff⟩
  · rw [hstop] at hkind
    simp at hkind
  · refine ⟨?_, ?_, ?_, ?_⟩
    · obtain ⟨sme, hsme⟩ := stopCond_true_entry st false p hsc
      obtain ⟨i, hdin, hget⟩ :=
        currentSourceMapEntry_eq_some st.sourceMap st.codeCells p sme hsme
      have hget2 := hget
      rw [hsm] at hget2
      obtain ⟨n, di, hin, _, hdi, hret, hvars, _⟩ :=
        smGet_register_some resolve dbgInfo i sme hget2
      exact ⟨p, i, sme, n, di, htr, hdin, hget, hin, hdi, hret, hvars⟩
    · intro j hj
      obtain ⟨pj, htrj, hscj⟩ := hmid j hj
      exact ⟨pj, htrj, stopCond_false_entry st pj hscj⟩
    · rw [hstate]
    · rw [heff, scheduledEvents_append, scheduledEvents_replicate_step]
      rfl

/-- Witness for C1: a concrete session with one statement marker; the step
verb stops on it with `stopOnStep` scheduled. -/
theorem c1_stepOver_witness :
    stW.sourceMap = registerCompiledContract id dbgInfoW ∧
    Debuggee.step stW traceW "stopOnStep" 1 = some rW ∧
    rW.kind = StopKind.stopped ∧
    ((∃ (pos : CodePos) (i : Int) (sme : SourceMapEntry) (n : Nat)
        (di : DebugInfoLocation),
      traceW rW.index = some pos ∧
      currentDebugInfoNumber stW.codeCells pos = some (JSNum.num i) ∧
      smGet stW.sourceMap i = some sme ∧
      i = (n : Int) ∧ dbgInfoW[n]? = some di ∧
      di.ret = false ∧ di.vars ≠ none) ∧
    (∀ j, j < rW.index → ∃ p, traceW j = some p ∧
      currentSourceMapEntry stW.sourceMap stW.codeCells p = none) ∧
    rW.state.frames.length ≤ stW.frames.length ∧
    scheduledEvents rW.effects = ["stopOnStep"]) :=
  ⟨rfl, rfl, rfl,
    c1_stepOver_stops_at_next_statement id dbgInfoW stW traceW 1 rW rfl rfl rfl⟩

/-- Claim C2: whenever `continue` returns with a stop, the source-map entry
at the stop position is defined and its `(path, line)` has a matching
breakpoint in the store, no earlier marker of the run stopped without a
matching breakpoint, and the scheduled event is `stopOnBreakpoint`. -/
theorem c2_continue_stops_only_on_breakpoint
    (st : DbgState) (trace : Nat → Option CodePos) (fuel : Nat) (r : LoopResult)
    (hrun : Debuggee.continueRun st trace fuel = some r)
    (hstop : r.kind = StopKind.stopped) :
    (∃ (pos : CodePos) (sme : SourceMapEntry),
      trace r.index = some pos ∧
      currentSourceMapEntry st.sourceMap st.codeCells pos = some sme ∧
      hasBreakpoint st.breakpoints sme.path sme.line = true) ∧
    (∀ j, j < r.index → ∃ p, trace j = some p ∧
      ∀ sme, currentSourceMapEntry st.sourceMap st.codeCells p = some sme →
        hasBreakpoint st.breakpoints sme.path sme.line = false) ∧
    scheduledEvents r.effects = ["stopOnBreakpoint"] := by
  obtain ⟨_, hmid, hrest⟩ :=
    stepUntilLine_spec st trace true none fuel r hrun
  rcases hrest with ⟨hkind, _, _⟩ | ⟨_, ⟨p, htr, hsc⟩, heff⟩
  · rw [hstop] at hkind
    simp at hkind
  · refine ⟨?_, ?_, ?_⟩
    · obtain ⟨sme, hsme, hbp⟩ := stopCond_true_breakpoint st p hsc
      exact ⟨p, sme, htr, hsme, hbp⟩
    · intro j hj
      obtain ⟨pj, htrj, hscj⟩ := hmid j hj
      exact ⟨pj, htrj, fun sme hsme =>
        stopCond_false_no_breakpoint st pj sme hscj hsme⟩
    · rw [heff, scheduledEvents_append, scheduledEvents_replicate_step]
      rfl

/-- Witness for C2: a concrete session with a breakpoint on the marker line;
`continue` stops exactly there with `stopOnBreakpoint` scheduled. -/
theorem c2_continue_witness :
    Debuggee.continueRun stW2 traceW 1 = some rW2 ∧
    rW2.kind = StopKind.stopped ∧
    ((∃ (pos : CodePos) (sme : SourceMapEntry),
      traceW rW2.index = some pos ∧
      currentSourceMapEntry stW2.sourceMap stW2.codeCells pos = some sme ∧
      hasBreakpoint stW2.breakpoints sme.path sme.line = true) ∧
    (∀ j, j < rW2.index → ∃ p, traceW j = some p ∧
      ∀ sme, currentSourceMapEntry stW2.sourceMap stW2.codeCells p = some sme →
        hasBreakpoint stW2.breakpoints sme.path sme.line = false) ∧
    scheduledEvents rW2.effects = ["stopOnBreakpoint"]) :=
  ⟨rfl, rfl, c2_continue_stops_only_on_breakpoint stW2 traceW 1 rW2 rfl rfl⟩

/-- Claim C10: the stepping loop stops (other than on VM termination) only
when `currentSourceMapEntry()` is defined, and a decoded NaN index — as
produced by `parseInt` on a non-decimal payload — looks up no source-map
entry, so it never causes a stop. -/
theorem c10_stop_requires_entry
    (st : DbgState) (trace : Nat → Option CodePos) (b : Bool)
    (ev : Option String) (fuel : Nat) (r : LoopResult)
    (hrun : stepUntilLine st trace b ev fuel = some r)
    (hstop : r.kind = StopKind.stopped)
    (sm2 : SourceMap) (cc2 : List (String × Cell)) (pos2 : CodePos)
    (hnan : currentDebugInfoNumber cc2 pos2 = some JSNum.nan) :
    (∃ (p : CodePos) (sme : SourceMapEntry), trace r.index = some p ∧
      currentSourceMapEntry st.sourceMap st.codeCells p = some sme) ∧
    currentSourceMapEntry sm2 cc2 pos2 = none := by
  obtain ⟨_, _, hrest⟩ := stepUntilLine_spec st trace b ev fuel r hrun
  rcases hrest with ⟨hkind, _, _⟩ | ⟨_, ⟨p, htr, hsc⟩, _⟩
  · rw [hstop] at hkind
    simp at hkind
  · obtain ⟨sme, hsme⟩ := stopCond_true_entry st b p hsc
    exact ⟨⟨p, sme, htr, hsme⟩, currentSourceMapEntry_nan sm2 cc2 pos2 hnan⟩

/-- Witness for C10: the concrete stopping run of `stW`, and the concrete
cell whose payload `"DIxy"` decodes to NaN and yields no entry. -/
theorem c10_witness :
    stepUntilLine stW traceW false (some "stopOnStep") 1 = some rW ∧
    rW.kind = StopKind.stopped ∧
    currentDebugInfoNumber ccX posX = some JSNum.nan ∧
    ((∃ (p : CodePos) (sme : SourceMapEntry), traceW rW.index = some p ∧
      currentSourceMapEntry stW.sourceMap stW.codeCells p = some sme) ∧
    currentSourceMapEntry [] ccX posX = none) :=
  ⟨rfl, rfl, rfl,
    c10_stop_requires_entry stW traceW false (some "stopOnStep") 1 rW rfl rfl
      [] ccX posX rfl⟩

/-- Counterexample to claim C3: a concrete run in which a Return marker —
a position whose decoded DebugInfoIndex names a `ret`-tagged debug-info
entry — is encountered during stepping, yet the frame stack is unchanged
(it stays `[]`); no frame is popped, so "exactly one frame is popped" fails. -/
theorem c3_counterexample :
    currentDebugInfoNumber stR.codeCells posW = some (JSNum.num 0) ∧
    dbgInfoR[0]?.map (fun di => di.ret) = some true ∧
    Debuggee.step stR traceW "stopOnStep" 2 = some rR ∧
    rR.state.frames = stR.frames ∧
    ¬stR.frames.length = rR.state.frames.length + 1 := by
  refine ⟨rfl, rfl, rfl, rfl, ?_⟩
  decide

/-- Claim C3 (amended): `registerCompiledContract` excludes every
`ret`-tagged debug-info entry from the source map, so a Return marker never
carries a source-map entry, and the stepping loop leaves the frame stack
untouched: no frame is popped when a Return marker is encountered. -/
theorem c3_return_marker_amended
    (resolve : String → String) (dbgInfo : List DebugInfoLocation)
    (n : Nat) (di : DebugInfoLocation)
    (hdi : dbgInfo[n]? = some di) (hret : di.ret = true)
    (st : DbgState) (trace : Nat → Option CodePos) (b : Bool)
    (ev : Option String) (fuel : Nat) (r : LoopResult)
    (hrun : stepUntilLine st trace b ev fuel = some r) :
    smGet (registerCompiledContract resolve dbgInfo) (n : Int) = none ∧
    r.state.frames = st.frames := by
  refine ⟨smGet_register_ret resolve dbgInfo n di hdi hret, ?_⟩
  rw [stepUntilLine_state st trace b ev fuel r hrun]

/-- Witness for the amended C3 at the concrete return-marker session. -/
theorem c3_amended_witness :
    dbgInfoR[0]? = some ⟨"f.fc", 1, true, some []⟩ ∧
    (⟨"f.fc", 1, true, some []⟩ : DebugInfoLocation).ret = true ∧
    stepUntilLine stR traceW false (some "stopOnStep") 2 = some rR ∧
    (smGet (registerCompiledContract id dbgInfoR) ((0 : Nat) : Int) = none ∧
      rR.state.frames = stR.frames) :=
  ⟨rfl, rfl, rfl,
    c3_return_marker_amended id dbgInfoR 0 ⟨"f.fc", 1, true, some []⟩ rfl rfl
      stR traceW false (some "stopOnStep") 2 rR rfl⟩

theorem cdin_unfold_found (cc : List (String × Cell)) (hs : String) (off : Nat)
    (cell : Cell) (n : Nat) (bytes : List Nat)
    (hcell : mapGet cc hs = some cell)
    (h1 : loadUintAt cell.bits off 12 = some 0xfef)
    (h2 : loadUintAt cell.bits (off + 12) 4 = some n)
    (h3 : loadBytesAt cell.bits (off + 16) (n + 1) = some bytes) :
    currentDebugInfoNumber cc ⟨hs, off⟩ =
      if bytes.take 2 = [68, 73] then some (parseIntBytes (bytes.drop 2))
      else none := by
  simp [currentDebugInfoNumber, hcell, h1, h2, h3]

/-- Claim C4: round-trip of the marker encoding — for every index `i` up to
`10 ^ 15` whose payload fits the 16-byte budget, writing the marker (12-bit
opcode `0xFEF`, 4-bit length-minus-one, payload `"DI" + decimal-ascii(i)`)
into a cell present in `codeCells` and decoding at that bit offset yields
exactly `i`. -/
theorem c4_marker_roundtrip (i : Nat) (cc : List (String × Cell)) (h : String)
    (pre post : List Bool) (rs : CellList)
    (_hle : i ≤ 10 ^ 15)
    (hbudget : (markerPayload i).length ≤ 16)
    (hcell : mapGet cc h =
      some (Cell.mk (pre ++ encodeMarker (markerPayload i) ++ post) rs)) :
    currentDebugInfoNumber cc ⟨h, pre.length⟩ = some (JSNum.num (i : Int)) := by
  have hdigits := decimalDigitsMSB_lt i
  have hbytes : ∀ x ∈ markerPayload i, x < 256 := by
    intro x hx
    rw [markerPayload] at hx
    rcases List.mem_append.mp hx with hx | hx
    · simp at hx
      rcases hx with h1 | h1 <;> omega
    · rw [decimalAscii, List.mem_map] at hx
      obtain ⟨d, hd, hdx⟩ := hx
      have := hdigits d hd
      omega
  have hplen : 1 ≤ (markerPayload i).length := by
    rw [markerPayload]
    simp
  have h1 : loadUintAt (pre ++ encodeMarker (markerPayload i) ++ post)
      pre.length 12 = some 0xfef := by
    have hb : pre ++ encodeMarker (markerPayload i) ++ post =
        pre ++ natToBits 12 0xfef ++
          (natToBits 4 ((markerPayload i).length - 1) ++
            (((markerPayload i).map (natToBits 8)).flatten ++ post)) := by
      rw [encodeMarker]
      simp [List.append_assoc]
    rw [hb]
    exact loadUintAt_exact pre _ 12 0xfef (by norm_num)
  have h2 : loadUintAt (pre ++ encodeMarker (markerPayload i) ++ post)
      (pre.length + 12) 4 = some ((markerPayload i).length - 1) := by
    have hb : pre ++ encodeMarker (markerPayload i) ++ post =
        (pre ++ natToBits 12 0xfef) ++
          natToBits 4 ((markerPayload i).length - 1) ++
          (((markerPayload i).map (natToBits 8)).flatten ++ post) := by
      rw [encodeMarker]
      simp [List.append_assoc]
    have hlen12 : (pre ++ natToBits 12 0xfef).length = pre.length + 12 := by
      simp [natToBits_length]
    have hlt : (markerPayload i).length - 1 < 2 ^ 4 := by
      have hpow : (2 : Nat) ^ 4 = 16 := by norm_num
      omega
    rw [hb, ← hlen12]
    exact loadUintAt_exact _ _ 4 _ hlt
  have h3 : loadBytesAt (pre ++ encodeMarker (markerPayload i) ++ post)
      (pre.length + 16) (((markerPayload i).length - 1) + 1) =
      some (markerPayload i) := by
    have hb : pre ++ encodeMarker (markerPayload i) ++ post =
        (pre ++ natToBits 12 0xfef ++
          natToBits 4 ((markerPayload i).length - 1)) ++
          ((markerPayload i).map (natToBits 8)).flatten ++ post := by
      rw [encodeMarker]
      simp [List.append_assoc]
    have hlen16 : (pre ++ natToBits 12 0xfef ++
        natToBits 4 ((markerPayload i).length - 1)).length = pre.length + 16 := by
      simp [natToBits_length]
    have hcount : ((markerPayload i).length - 1) + 1 = (markerPayload i).length := by
      omega
    rw [hb, ← hlen16, hcount]
    exact loadBytesAt_exact (markerPayload i) _ post hbytes
  rw [cdin_unfold_found cc h pre.length _ _ _ hcell h1 h2 h3]
  have htake : (markerPayload i).take 2 = [68, 73] := rfl
  rw [if_pos htake]
  have hdrop : (markerPayload i).drop 2 = decimalAscii i := rfl
  rw [hdrop, parseIntBytes_decimalAscii]

/-- Witness for C4 at the concrete index 0 (payload `"DI0"`). -/
theorem c4_roundtrip_witness :
    (0 : Nat) ≤ 10 ^ 15 ∧ (markerPayload 0).length ≤ 16 ∧
    mapGet [("H", cellW)] "H" =
      some (Cell.mk ([] ++ encodeMarker (markerPayload 0) ++ []) CellList.nil) ∧
    currentDebugInfoNumber [("H", cellW)] ⟨"H", 0⟩ =
      some (JSNum.num ((0 : Nat) : Int)) :=
  ⟨by norm_num, by decide, rfl,
    c4_marker_roundtrip 0 [("H", cellW)] "H" [] [] CellList.nil
      (by norm_num) (by decide) rfl⟩

theorem cdin_absent (cc : List (String × Cell)) (pos : CodePos)
    (h : mapGet cc pos.hash = none) : currentDebugInfoNumber cc pos = none := by
  simp [currentDebugInfoNumber, h]

theorem cdin_short (cc : List (String × Cell)) (pos : CodePos) (cell : Cell)
    (h : mapGet cc pos.hash = some cell)
    (hlen : cell.bits.length < pos.offset + 16) :
    currentDebugInfoNumber cc pos = none := by
  cases hl : loadUintAt cell.bits pos.offset 12 with
  | none => simp [currentDebugInfoNumber, h, hl]
  | some opp =>
    by_cases hopp : opp = 0xfef
    · have h4 : loadUintAt cell.bits (pos.offset + 12) 4 = none := by
        rw [loadUintAt, if_neg (by omega)]
      simp [currentDebugInfoNumber, h, hl, hopp, h4]
    · simp [currentDebugInfoNumber, h, hl, hopp]

theorem cdin_payload_short (cc : List (String × Cell)) (pos : CodePos)
    (cell : Cell) (n : Nat)
    (h : mapGet cc pos.hash = some cell)
    (hn : loadUintAt cell.bits (pos.offset + 12) 4 = some n)
    (hlen : cell.bits.length < pos.offset + 16 + 8 * (n + 1)) :
    currentDebugInfoNumber cc pos = none := by
  cases hl : loadUintAt cell.bits pos.offset 12 with
  | none => simp [currentDebugInfoNumber, h, hl]
  | some opp =>
    by_cases hopp : opp = 0xfef
    · have h4 : loadBytesAt cell.bits (pos.offset + 16) (n + 1) = none :=
        loadBytesAt_past_end (n + 1) cell.bits (pos.offset + 16) (by omega)
          (by omega)
      simp [currentDebugInfoNumber, h, hl, hopp, hn, h4]
    · simp [currentDebugInfoNumber, h, hl, hopp]

/-- Counterexample to claim C5: at a `"DI"`-prefixed payload whose remaining
characters are not a well-formed decimal (`"DIxy"`), the decoder does not
return undefined — it returns the NaN produced by `parseInt`. -/
theorem c5_counterexample :
    currentDebugInfoNumber ccX posX = some JSNum.nan ∧
    currentDebugInfoNumber ccX posX ≠ none ∧
    parseIntBytes [120, 121] = JSNum.nan := by
  refine ⟨rfl, ?_, rfl⟩
  decide

/-- Claim C5 (amended): the decoder returns "no marker" (`undefined`) and
raises no exception when the hash is absent from `codeCells`, when a bit
read (opcode, length nibble, or payload) runs past the end of the cell, or
when the payload does not carry the `"DI"` prefix; when the payload is
`"DI"`-prefixed but its remaining characters are not a well-formed decimal
integer the decoder still raises no exception but returns the NaN value of
`parseInt` (not `undefined`) — which subsequently matches no source-map
entry. -/
theorem c5_decoder_errors_amended
    (cc1 : List (String × Cell)) (pos1 : CodePos)
    (h1 : mapGet cc1 pos1.hash = none)
    (cc2 : List (String × Cell)) (pos2 : CodePos) (cell2 : Cell)
    (h2 : mapGet cc2 pos2.hash = some cell2)
    (h2len : cell2.bits.length < pos2.offset + 16)
    (cc3 : List (String × Cell)) (pos3 : CodePos) (cell3 : Cell) (n3 : Nat)
    (h3 : mapGet cc3 pos3.hash = some cell3)
    (h3n : loadUintAt cell3.bits (pos3.offset + 12) 4 = some n3)
    (h3len : cell3.bits.length < pos3.offset + 16 + 8 * (n3 + 1))
    (cc4 : List (String × Cell)) (hs4 : String) (off4 : Nat) (cell4 : Cell)
    (n4 : Nat) (b4 : List Nat)
    (h4 : mapGet cc4 hs4 = some cell4)
    (h4o : loadUintAt cell4.bits off4 12 = some 0xfef)
    (h4n : loadUintAt cell4.bits (off4 + 12) 4 = some n4)
    (h4b : loadBytesAt cell4.bits (off4 + 16) (n4 + 1) = some b4)
    (h4p : b4.take 2 ≠ [68, 73])
    (cc5 : List (String × Cell)) (hs5 : String) (off5 : Nat) (cell5 : Cell)
    (n5 : Nat) (rest5 : List Nat)
    (h5 : mapGet cc5 hs5 = some cell5)
    (h5o : loadUintAt cell5.bits off5 12 = some 0xfef)
    (h5n : loadUintAt cell5.bits (off5 + 12) 4 = some n5)
    (h5b : loadBytesAt cell5.bits (off5 + 16) (n5 + 1) = some (68 :: 73 :: rest5)) :
    currentDebugInfoNumber cc1 pos1 = none ∧
    currentDebugInfoNumber cc2 pos2 = none ∧
    currentDebugInfoNumber cc3 pos3 = none ∧
    currentDebugInfoNumber cc4 ⟨hs4, off4⟩ = none ∧
    currentDebugInfoNumber cc5 ⟨hs5, off5⟩ = some (parseIntBytes rest5) := by
  refine ⟨cdin_absent cc1 pos1 h1, cdin_short cc2 pos2 cell2 h2 h2len,
    cdin_payload_short cc3 pos3 cell3 n3 h3 h3n h3len, ?_, ?_⟩
  · rw [cdin_unfold_found cc4 hs4 off4 cell4 n4 b4 h4 h4o h4n h4b,
      if_neg h4p]
  · have htake : List.take 2 (68 :: 73 :: rest5) = [68, 73] := rfl
    rw [cdin_unfold_found cc5 hs5 off5 cell5 n5 (68 :: 73 :: rest5) h5 h5o
      h5n h5b, if_pos htake]
    rfl

/-- Witness for the amended C5, instantiating every error case at a concrete
cell: absent hash, 1-bit cell, payload running past the end, payload
`"AB"`, and payload `"DIxy"`. -/
theorem c5_amended_witness :
    mapGet ([] : List (String × Cell)) posW.hash = none ∧
    mapGet [("S", cellShort)] (⟨"S", 0⟩ : CodePos).hash = some cellShort ∧
    cellShort.bits.length < (⟨"S", 0⟩ : CodePos).offset + 16 ∧
    mapGet [("T", cellShort2)] (⟨"T", 0⟩ : CodePos).hash = some cellShort2 ∧
    loadUintAt cellShort2.bits ((⟨"T", 0⟩ : CodePos).offset + 12) 4 = some 5 ∧
    cellShort2.bits.length < (⟨"T", 0⟩ : CodePos).offset + 16 + 8 * (5 + 1) ∧
    mapGet [("P", cellP)] "P" = some cellP ∧
    loadUintAt cellP.bits 0 12 = some 0xfef ∧
    loadUintAt cellP.bits (0 + 12) 4 = some 1 ∧
    loadBytesAt cellP.bits (0 + 16) (1 + 1) = some [65, 66] ∧
    [65, 66].take 2 ≠ [68, 73] ∧
    mapGet ccX "HX" = some cellX ∧
    loadUintAt cellX.bits 0 12 = some 0xfef ∧
    loadUintAt cellX.bits (0 + 12) 4 = some 3 ∧
    loadBytesAt cellX.bits (0 + 16) (3 + 1) = some (68 :: 73 :: [120, 121]) ∧
    (currentDebugInfoNumber [] posW = none ∧
     currentDebugInfoNumber [("S", cellShort)] ⟨"S", 0⟩ = none ∧
     currentDebugInfoNumber [("T", cellShort2)] ⟨"T", 0⟩ = none ∧
     currentDebugInfoNumber [("P", cellP)] ⟨"P", 0⟩ = none ∧
     currentDebugInfoNumber ccX ⟨"HX", 0⟩ = some (parseIntBytes [120, 121])) :=
  ⟨rfl, rfl, by decide, rfl, rfl, by decide, rfl, rfl, rfl, rfl, by decide,
    rfl, rfl, rfl, rfl,
    c5_decoder_errors_amended [] posW rfl
      [("S", cellShort)] ⟨"S", 0⟩ cellShort rfl (by decide)
      [("T", cellShort2)] ⟨"T", 0⟩ cellShort2 5 rfl rfl (by decide)
      [("P", cellP)] "P" 0 cellP 1 [65, 66] rfl rfl rfl rfl (by decide)
      ccX "HX" 0 cellX 3 [120, 121] rfl rfl rfl rfl⟩

/-- Claim C6: `setBreakpoint(p, l)` returns a record verified exactly when
`isLineAvailable(p, l)` holds at call time, carrying the current counter as
its id — fresh: strictly above every id in the store (given the counter
invariant, which is preserved, and which starts at 0 in the initial state) —
and the record is appended to the end of the per-path list. -/
theorem c6_setBreakpoint_spec (st : DbgState) (p : String) (l : Nat)
    (hinv : ∀ bp ∈ storedBreakpoints st.breakpoints, bp.id < st.breakpointID) :
    (setBreakpoint st p l).1.verified = isLineAvailable st p l ∧
    (setBreakpoint st p l).1.id = st.breakpointID ∧
    (setBreakpoint st p l).2.breakpointID = st.breakpointID + 1 ∧
    (∀ bp ∈ storedBreakpoints st.breakpoints,
      bp.id < (setBreakpoint st p l).1.id) ∧
    (∀ bp ∈ storedBreakpoints (setBreakpoint st p l).2.breakpoints,
      bp.id < (setBreakpoint st p l).2.breakpointID) ∧
    mapGet (setBreakpoint st p l).2.breakpoints p =
      some ((mapGet st.breakpoints p).getD [] ++ [(setBreakpoint st p l).1]) ∧
    initialState.breakpointID = 0 := by
  refine ⟨rfl, rfl, rfl, fun bp hbp => hinv bp hbp, ?_, ?_, rfl⟩
  · intro bp hbp
    have hbp2 : bp ∈ storedBreakpoints (mapSet st.breakpoints p
        (((mapGet st.breakpoints p).getD []) ++
          [⟨st.breakpointID, l, isLineAvailable st p l⟩])) := hbp
    have h2 := storedBreakpoints_mapSet st.breakpoints p
      (((mapGet st.breakpoints p).getD []) ++
        [⟨st.breakpointID, l, isLineAvailable st p l⟩]) bp hbp2
    show bp.id < st.breakpointID + 1
    rcases h2 with h | h
    · rcases List.mem_append.mp h with h | h
      · cases harr : mapGet st.breakpoints p with
        | none => rw [harr] at h; simp at h
        | some arr =>
          rw [harr] at h
          have hmem := mapGet_mem_stored st.breakpoints p arr harr bp
            (by simpa using h)
          have := hinv bp hmem
          omega
      · simp at h
        rw [h]
        exact Nat.lt_succ_self st.breakpointID
    · have := hinv bp h
      omega
  · exact mapGet_mapSet_self st.breakpoints p _

/-- Witness for C6 at the initial (empty) store. -/
theorem c6_setBreakpoint_witness :
    (∀ bp ∈ storedBreakpoints initialState.breakpoints,
      bp.id < initialState.breakpointID) ∧
    ((setBreakpoint initialState "a.fc" 3).1.verified =
      isLineAvailable initialState "a.fc" 3 ∧
    (setBreakpoint initialState "a.fc" 3).1.id = initialState.breakpointID ∧
    (setBreakpoint initialState "a.fc" 3).2.breakpointID =
      initialState.breakpointID + 1 ∧
    (∀ bp ∈ storedBreakpoints initialState.breakpoints,
      bp.id < (setBreakpoint initialState "a.fc" 3).1.id) ∧
    (∀ bp ∈ storedBreakpoints (setBreakpoint initialState "a.fc" 3).2.breakpoints,
      bp.id < (setBreakpoint initialState "a.fc" 3).2.breakpointID) ∧
    mapGet (setBreakpoint initialState "a.fc" 3).2.breakpoints "a.fc" =
      some ((mapGet initialState.breakpoints "a.fc").getD [] ++
        [(setBreakpoint initialState "a.fc" 3).1]) ∧
    initialState.breakpointID = 0) :=
  ⟨by intro bp hbp; simp [initialState, storedBreakpoints] at hbp,
    c6_setBreakpoint_spec initialState "a.fc" 3
      (by intro bp hbp; simp [initialState, storedBreakpoints] at hbp)⟩

/-- Claim C7: when the single-step primitive signals VM termination during a
stepping verb, the run ends with the `onFinished` sequence — schedule the
`end` event, query the kind-matching result accessor, destroy the handle
with the kind-matching destructor, and invoke `finishedCallback` — and the
callback is invoked exactly once in the whole run. -/
theorem c7_finalization (st : DbgState) (trace : Nat → Option CodePos)
    (b : Bool) (ev : Option String) (fuel : Nat) (r : LoopResult)
    (hrun : stepUntilLine st trace b ev fuel = some r)
    (hfin : r.kind = StopKind.finished) :
    r.effects = List.replicate (r.index + 1)
      (Effect.execCall (stepCall st.debugType)) ++
      [Effect.schedEvent "end", Effect.execCall (resultCall st.debugType),
       Effect.execCall (destroyCall st.debugType), Effect.callback] ∧
    r.effects.count Effect.callback = 1 ∧
    (st.debugType = DebugType.get →
      resultCall st.debugType = ExecCall.sbsGetMethodResult ∧
      destroyCall st.debugType = ExecCall.destroyTvmEmulator) ∧
    (st.debugType = DebugType.tx →
      resultCall st.debugType = ExecCall.sbsTransactionResult ∧
      destroyCall st.debugType = ExecCall.destroyEmulator) := by
  obtain ⟨_, _, hrest⟩ := stepUntilLine_spec st trace b ev fuel r hrun
  rcases hrest with ⟨_, _, heff⟩ | ⟨hkind, _, _⟩
  · have hc1 : (List.replicate (r.index + 1)
        (Effect.execCall (stepCall st.debugType))).count Effect.callback = 0 := by
      rw [List.count_eq_zero]
      simp [List.mem_replicate]
    have hc2 : (onFinishedEffects st.debugType).count Effect.callback = 1 := by
      cases st.debugType <;> rfl
    refine ⟨heff, ?_, fun h => by rw [h]; exact ⟨rfl, rfl⟩,
      fun h => by rw [h]; exact ⟨rfl, rfl⟩⟩
    rw [heff, List.count_append, hc1, hc2]
  · rw [hfin] at hkind
    simp at hkind

/-- Witness for C7: a run that terminates on the first step of a get-method
session. -/
theorem c7_finalization_witness :
    stepUntilLine initialState traceF false none 1 = some rF ∧
    rF.kind = StopKind.finished ∧
    (rF.effects = List.replicate (rF.index + 1)
      (Effect.execCall (stepCall initialState.debugType)) ++
      [Effect.schedEvent "end",
       Effect.execCall (resultCall initialState.debugType),
       Effect.execCall (destroyCall initialState.debugType),
       Effect.callback] ∧
    rF.effects.count Effect.callback = 1 ∧
    (initialState.debugType = DebugType.get →
      resultCall initialState.debugType = ExecCall.sbsGetMethodResult ∧
      destroyCall initialState.debugType = ExecCall.destroyTvmEmulator) ∧
    (initialState.debugType = DebugType.tx →
      resultCall initialState.debugType = ExecCall.sbsTransactionResult ∧
      destroyCall initialState.debugType = ExecCall.destroyEmulator)) :=
  ⟨rfl, rfl, c7_finalization initialState traceF false none 1 rF rfl rfl⟩

/-- Claim C8: no stop, end, or output event scheduled during a stepping verb
is dispatched synchronously — the engine never emits directly (no `emitNow`
effect occurs), every scheduled event is dispatched in an event-loop turn
strictly after turn 0 in which the verb returns, and the emulator log sink
also routes through the deferred scheduler. -/
theorem c8_deferred_events (st : DbgState) (trace : Nat → Option CodePos)
    (b : Bool) (ev : Option String) (fuel : Nat) (r : LoopResult)
    (hrun : stepUntilLine st trace b ev fuel = some r) :
    (∀ s, Effect.emitNow s ∉ r.effects) ∧
    (∀ i, i < (scheduledEvents r.effects).length →
      verbReturnTurn < eventDispatchTurn i) ∧
    (∀ s, debugLogFunc s = [Effect.schedEvent "output"]) := by
  obtain ⟨_, _, hrest⟩ := stepUntilLine_spec st trace b ev fuel r hrun
  refine ⟨?_, ?_, fun s => rfl⟩
  · intro s hmem
    rcases hrest with ⟨_, _, heff⟩ | ⟨_, _, heff⟩ <;> rw [heff] at hmem
    · rcases List.mem_append.mp hmem with h | h
      · exact absurd (List.eq_of_mem_replicate h) (by simp)
      · exact emitNow_not_mem_onFinishedEffects st.debugType s h
    · rcases List.mem_append.mp hmem with h | h
      · exact absurd (List.eq_of_mem_replicate h) (by simp)
      · exact emitNow_not_mem_stopEventEffects b ev s h
  · intro i _
    rw [verbReturnTurn, eventDispatchTurn]
    omega

/-- Witness for C8 at the concrete terminating run. -/
theorem c8_deferred_events_witness :
    stepUntilLine initialState traceF false none 1 = some rF ∧
    ((∀ s, Effect.emitNow s ∉ rF.effects) ∧
    (∀ i, i < (scheduledEvents rF.effects).length →
      verbReturnTurn < eventDispatchTurn i) ∧
    (∀ s, debugLogFunc s = [Effect.schedEvent "output"])) :=
  ⟨rfl, c8_deferred_events initialState traceF false none 1 rF rfl⟩
